import Mathlib

/-!
# Verification of the `Events` C++ header (`Events.hpp`)

This file gives a shallow embedding of the single-header event system in
`Events.hpp` and settles the frozen claims about it.

Modelling conventions:
* Pointers (`void*`, function pointers, `this` pointers) are modelled as `Nat`
  pointer values, `0` standing for `nullptr`.
* `EventHandle::Priority` is `int16_t`; it is modelled as `Int` together with
  an explicit signed 16-bit wraparound `wrap16` applied where the C++ code
  stores back into an `int16_t` (the `priority_++` post-increment).
* `EventHandle::Identifier` is an `enum class : uint64_t`; it is modelled as a
  `Nat` (`0` = Invalid, `1` = Function, `2` = Lambda, `3` = StdFunction,
  `4` = MemberFunction).
* `std::map<Priority, USet>` (`callList_`) is modelled as an association list
  `List (Int × List Call)` whose keys are kept in strictly ascending order by
  the insertion function `setBucket`, mirroring ordered-map iteration.
* The per-bucket `std::unordered_set` has no specified iteration order; the
  model fixes insertion order (`emplace` appends).  No theorem below relies on
  a particular intra-bucket order beyond "each stored call exactly once".
* A fatal `assert` is modelled by returning `none` from the operation.
* The type-erased thunk stored in a `Call` is identified by the label `fn` of
  the callable it captured; invoking a call is observed as the triple
  (callable label, `class_ptr` passed to the thunk, arguments).
-/

namespace Events

/-- Signed 16-bit wraparound: the value an `int16_t` holds after an
out-of-range store (two's complement). -/
def wrap16 (x : Int) : Int := (x + 32768) % 65536 - 32768

/-- `EventHandle::Identifier::Invalid = 0` -/
def identInvalid : Nat := 0
/-- `EventHandle::Identifier::Function = 1` -/
def identFunction : Nat := 1
/-- `EventHandle::Identifier::Lambda = 2` -/
def identLambda : Nat := 2
/-- `EventHandle::Identifier::StdFunction = 3` -/
def identStdFunction : Nat := 3
/-- `EventHandle::Identifier::MemberFunction = 4` -/
def identMemberFunction : Nat := 4

/-- `struct EventHandle`: priority (`int16_t`), identifier
(`enum class : uint64_t`), function (`uintptr_t`). -/
structure EventHandle where
  priority : Int
  identifier : Nat
  function : Nat
deriving DecidableEq, Repr

/-- `EventHandle::operator<` exactly as written in the source: the
conjunction of the three componentwise strict comparisons. -/
def EventHandle.lt (a b : EventHandle) : Bool :=
  decide (a.priority < b.priority) &&
  decide (a.identifier < b.identifier) &&
  decide (a.function < b.function)

/-- `EventHandle::operator==`: all three components compare equal. -/
def EventHandle.eqB (a b : EventHandle) : Bool :=
  decide (a.priority = b.priority) &&
  decide (a.identifier = b.identifier) &&
  decide (a.function = b.function)

/-- Modelled from the spec's words (for comparison with the code's
`EventHandle.lt`): lexicographic order over (priority, kind, token). -/
def specLexLT (a b : EventHandle) : Bool :=
  decide (a.priority < b.priority) ||
  (decide (a.priority = b.priority) &&
    (decide (a.identifier < b.identifier) ||
      (decide (a.identifier = b.identifier) && decide (a.function < b.function))))

/-- `Internal::Call`: the stored handle, the `class_ptr` passed to the thunk
(`nullptr` = `0` unless the member-function constructor was used), and the
label `fn` of the callable captured by the thunk. -/
structure Call where
  handle : EventHandle
  class_ptr : Nat
  fn : Nat
deriving DecidableEq, Repr

/-- The `Event` class state: `boundTo` (`void*`, `0` = `nullptr`),
`callList_` (`std::map<Priority, USet>` as a sorted association list),
`priority_` (the `int16_t` sequence counter) and `initialized_`. -/
structure Event where
  boundTo : Nat
  callList : List (Int × List Call)
  priority : Int
  initialized : Bool
deriving DecidableEq, Repr

/-- The default-constructed `Event()`. -/
def Event.mk0 : Event := ⟨0, [], 0, false⟩

/-- `BindTo`: stores the pointer (possibly null) and sets `initialized_`. -/
def Event.bindTo (e : Event) (p : Nat) : Event :=
  { e with boundTo := p, initialized := true }

/-- Lookup of `callList_[p]`'s current contents: the bucket stored at key
`p`, or the empty bucket when absent (as `operator[]` default-inserts). -/
def getBucket : List (Int × List Call) → Int → List Call
  | [], _ => []
  | (q, b) :: t, p => if p = q then b else getBucket t p

/-- Store bucket `b` at key `p`, keeping keys in ascending order
(`std::map` write-back through `operator[]`). -/
def setBucket : List (Int × List Call) → Int → List Call → List (Int × List Call)
  | [], p, b => [(p, b)]
  | (q, c) :: t, p, b =>
    if p = q then (p, b) :: t
    else if p < q then (p, b) :: (q, c) :: t
    else (q, c) :: setBucket t p b

/-- `USet::emplace_back`: emplace into the unordered set (whose equality is
`Call::operator==`, i.e. handle equality) and `assert(was_added)`;
`none` models the failed assertion on a duplicate. -/
def emplace_back (bucket : List Call) (c : Call) : Option (List Call) :=
  if bucket.any (fun x => EventHandle.eqB x.handle c.handle) then none
  else some (bucket ++ [c])

/-- Common body of the four `Hook` overloads.  `ordered` is the `KeepOrder`
template parameter (`Ordered`), `PRIORITY` the template argument, `ident` the
identifier written into the handle, `fnValue` the handle's `function` field,
`owner` the `class_ptr` stored in the `Call`, and `fnLabel` the identity of
the callable captured by the thunk.  Returns the handle and the new state, or
`none` when an assertion fires (uninitialized registry or duplicate handle). -/
def Event.hookRaw (ordered : Bool) (PRIORITY : Int) (ident fnValue owner fnLabel : Nat)
    (e : Event) : Option (EventHandle × Event) :=
  if e.initialized then
    let prio : Int := if ordered then e.priority else PRIORITY
    let counter' : Int := if ordered then wrap16 (e.priority + 1) else e.priority
    let handle : EventHandle := ⟨prio, ident, fnValue⟩
    match emplace_back (getBucket e.callList prio) ⟨handle, owner, fnLabel⟩ with
    | none => none
    | some b =>
        some (handle, { e with callList := setBucket e.callList prio b, priority := counter' })
  else none

/-- `Hook(Fn* func_ptr)`: non-member function. -/
def Event.hookFunction (ordered : Bool) (PRIORITY : Int) (func_ptr : Nat) (e : Event) :
    Option (EventHandle × Event) :=
  e.hookRaw ordered PRIORITY identFunction func_ptr 0 func_ptr

/-- `Hook(Fn&& lambda)`: lambda; the handle's token is the lambda's address. -/
def Event.hookLambda (ordered : Bool) (PRIORITY : Int) (addr : Nat) (e : Event) :
    Option (EventHandle × Event) :=
  e.hookRaw ordered PRIORITY identLambda addr 0 addr

/-- `Hook(std::function<Signature> func)`. -/
def Event.hookStdFunction (ordered : Bool) (PRIORITY : Int) (addr : Nat) (e : Event) :
    Option (EventHandle × Event) :=
  e.hookRaw ordered PRIORITY identStdFunction addr 0 addr

/-- `Hook(C* class_ptr, Fn func_ptr)`: non-static member function; the
handle's token is `class_ptr XOR func_ptr` and the `Call` stores
`class_ptr` as its owner. -/
def Event.hookMember (ordered : Bool) (PRIORITY : Int) (class_ptr func_ptr : Nat) (e : Event) :
    Option (EventHandle × Event) :=
  e.hookRaw ordered PRIORITY identMemberFunction (Nat.xor class_ptr func_ptr) class_ptr func_ptr

/-- All stored calls in iteration order: buckets in `callList_` order,
concatenated. -/
def flatCalls : List (Int × List Call) → List Call
  | [] => []
  | (_, b) :: t => b ++ flatCalls t

/-- The calls `Invoke` visits, in visiting order. -/
def Event.invokeCalls (e : Event) : List Call := flatCalls e.callList

/-- `Invoke(args...)`: asserts initialization, then calls
`function(class_ptr, args...)` for every call of every bucket.  The
observable trace records, per visited call, the callable's label, the
`class_ptr` handed to the thunk, and the forwarded arguments. -/
def Event.invoke {α : Type} (e : Event) (a : α) : Option (List (Nat × Nat × α)) :=
  if e.initialized then some (e.invokeCalls.map (fun c => (c.fn, c.class_ptr, a)))
  else none

/-- `std::find` + `erase` step of `RemoveCall`: remove the first call whose
handle equals `h`; `none` when no call matches (the failed assertion). -/
def eraseFirst : List Call → EventHandle → Option (List Call)
  | [], _ => none
  | c :: t, h =>
    if EventHandle.eqB c.handle h then some t
    else (eraseFirst t h).map (fun t' => c :: t')

/-- `RemoveCall(handle)`: looks up `callList_[handle.GetPriority()]`, finds
the call comparing equal to the handle (fatal assertion when absent), and
erases it. -/
def Event.removeCall (e : Event) (h : EventHandle) : Option Event :=
  if e.initialized then
    match eraseFirst (getBucket e.callList h.priority) h with
    | none => none
    | some b => some { e with callList := setBucket e.callList h.priority b }
  else none

/-- `Unhook(handle)`: asserts initialization then delegates to `RemoveCall`. -/
def Event.unhook (e : Event) (h : EventHandle) : Option Event :=
  if e.initialized then e.removeCall h else none

/-- `UnhookClass(class_ptr)`.  The source constructs
`EventHandle handle(0, class_ptr, 0)` — the class pointer is passed where the
`Identifier` parameter is expected (as written this constructor call is
ill-formed C++; the model follows the evident meaning of the text and reads
the pointer's value as the identifier) — and then erases every call whose
stored `handle.GetIdentifier()` equals that sentinel identifier, asserting
that at least one call was erased. -/
def Event.unhookClass (e : Event) (class_ptr : Nat) : Option Event :=
  if e.initialized then
    let sentinelIdent : Nat := class_ptr
    let removedAny : Bool :=
      e.callList.any (fun kv => kv.2.any (fun c => decide (c.handle.identifier = sentinelIdent)))
    let callList' :=
      e.callList.map (fun kv =>
        (kv.1, kv.2.filter (fun c => !decide (c.handle.identifier = sentinelIdent))))
    if removedAny then some { e with callList := callList' } else none
  else none

/-- Total number of stored calls, over all buckets. -/
def sumSizes : List (Int × List Call) → Nat
  | [] => 0
  | (_, b) :: t => b.length + sumSizes t

/-- `CallListSize()`: asserts initialization, then sums the bucket sizes. -/
def Event.callListSize (e : Event) : Option Nat :=
  if e.initialized then some (sumSizes e.callList) else none

/-- `Clear()`: asserts initialization, then clears every bucket (the map
nodes themselves remain, holding empty buckets). -/
def Event.clear (e : Event) : Option Event :=
  if e.initialized then
    some { e with callList := e.callList.map (fun kv => (kv.1, [])) }
  else none

/-- `ReplaceBound(toReplace)`: every call whose `class_ptr` equals
`toReplace` is retargeted to this event's `boundTo`. -/
def Event.replaceBound (e : Event) (toReplace : Nat) : Event :=
  { e with callList := e.callList.map (fun kv =>
      (kv.1, kv.2.map (fun c =>
        if c.class_ptr = toReplace then { c with class_ptr := e.boundTo } else c))) }

/-- `operator=` (copy assignment) of `Event`: copies `callList_`,
`priority_` and `initialized_`, then — when both this event and the source
are bound to non-null owners — rewrites calls owned by the source's owner to
this event's owner.  (The `&other == this` self-assignment guard is the
identity on values and needs no separate modelling.) -/
def Event.copyAssign (dst src : Event) : Event :=
  let d : Event :=
    { dst with callList := src.callList, priority := src.priority,
               initialized := src.initialized }
  if dst.boundTo ≠ 0 ∧ src.boundTo ≠ 0 then d.replaceBound src.boundTo else d

/-! ## Well-formedness of the registry state

The representation invariants of the C++ containers: the `std::map` keeps its
keys strictly ascending, and each per-bucket `unordered_set` holds no two
calls with equal handles (`Call::operator==` is handle equality).  Every
`Hook` additionally writes a call into the bucket of its own handle's
priority, recorded by `BucketWF`. -/

/-- Per-bucket invariant: no two calls share a handle, and every call's
handle carries the bucket's priority key. -/
def BucketWF (p : Int) (b : List Call) : Prop :=
  (b.map Call.handle).Nodup ∧ ∀ c ∈ b, c.handle.priority = p

instance (p : Int) (b : List Call) : Decidable (BucketWF p b) := by
  unfold BucketWF; exact inferInstance

/-- Registry state well-formedness: strictly ascending bucket keys and
per-bucket invariants. -/
def EventWF (e : Event) : Prop :=
  (e.callList.map Prod.fst).Pairwise (· < ·) ∧ ∀ kv ∈ e.callList, BucketWF kv.1 kv.2

instance (e : Event) : Decidable (EventWF e) := by
  unfold EventWF; exact inferInstance

/-- Sequence of `Hook` calls on free functions: each element supplies the
`PRIORITY` template argument and the function pointer; performed in
order-preserving mode (`KeepOrder = true`). -/
def hookSeq : List (Int × Nat) → Event → Option Event
  | [], e => some e
  | (P, f) :: t, e =>
    match e.hookFunction true P f with
    | none => none
    | some x => hookSeq t x.2

/-- The buckets an order-preserving hook sequence appends when the counter
starts at `c` and does not wrap: one singleton bucket per hook, at
consecutive keys. -/
def seqBuckets : Int → List (Int × Nat) → List (Int × List Call)
  | _, [] => []
  | c, (_, f) :: t => (c, [⟨⟨c, identFunction, f⟩, 0, f⟩]) :: seqBuckets (c + 1) t

/-! ## Basic lemmas about the embedded primitives -/

theorem eqB_iff (a b : EventHandle) : EventHandle.eqB a b = true ↔ a = b := by
  cases a; cases b
  simp [EventHandle.eqB, EventHandle.mk.injEq, and_assoc]

theorem wrap16_eq_self {x : Int} (h1 : -32768 ≤ x) (h2 : x ≤ 32767) : wrap16 x = x := by
  unfold wrap16; omega

theorem wrap16_lb (x : Int) : -32768 ≤ wrap16 x := by
  unfold wrap16; omega

theorem wrap16_ub (x : Int) : wrap16 x ≤ 32767 := by
  unfold wrap16; omega

theorem flatCalls_append (x y : List (Int × List Call)) :
    flatCalls (x ++ y) = flatCalls x ++ flatCalls y := by
  induction x with
  | nil => rfl
  | cons kv t ih => obtain ⟨p, b⟩ := kv; simp [flatCalls, ih]

theorem mem_flatCalls {m : List (Int × List Call)} {c : Call} :
    c ∈ flatCalls m ↔ ∃ kv ∈ m, c ∈ kv.2 := by
  induction m with
  | nil => simp [flatCalls]
  | cons kv t ih => obtain ⟨p, b⟩ := kv; simp [flatCalls, ih]

theorem getBucket_cons_eq (q : Int) (b : List Call) (t : List (Int × List Call)) :
    getBucket ((q, b) :: t) q = b := by
  simp [getBucket]

theorem getBucket_cons_ne {p q : Int} (b : List Call) (t : List (Int × List Call))
    (h : p ≠ q) : getBucket ((q, b) :: t) p = getBucket t p := by
  simp [getBucket, h]

theorem setBucket_cons_eq (q : Int) (c b : List Call) (t : List (Int × List Call)) :
    setBucket ((q, c) :: t) q b = (q, b) :: t := by
  simp [setBucket]

theorem setBucket_cons_lt {p q : Int} (c b : List Call) (t : List (Int × List Call))
    (h : p < q) : setBucket ((q, c) :: t) p b = (p, b) :: (q, c) :: t := by
  have h1 : ¬ p = q := by omega
  simp [setBucket, h1, h]

theorem setBucket_cons_gt {p q : Int} (c b : List Call) (t : List (Int × List Call))
    (h : q < p) : setBucket ((q, c) :: t) p b = (q, c) :: setBucket t p b := by
  have h1 : ¬ p = q := by omega
  have h2 : ¬ p < q := by omega
  simp [setBucket, h1, h2]

theorem getBucket_eq_nil_of_not_mem {m : List (Int × List Call)} {p : Int}
    (h : p ∉ m.map Prod.fst) : getBucket m p = [] := by
  induction m with
  | nil => rfl
  | cons kv t ih =>
    obtain ⟨q, b⟩ := kv
    simp only [List.map_cons, List.mem_cons, not_or] at h
    simp only [getBucket, if_neg h.1]
    exact ih h.2

theorem getBucket_mem (m : List (Int × List Call)) (p : Int) :
    getBucket m p = [] ∨ (p, getBucket m p) ∈ m := by
  induction m with
  | nil => exact Or.inl rfl
  | cons kv t ih =>
    obtain ⟨q, b⟩ := kv
    by_cases hpq : p = q
    · subst hpq
      simp [getBucket]
    · simp only [getBucket, if_neg hpq]
      rcases ih with h | h
      · exact Or.inl h
      · exact Or.inr (List.mem_cons_of_mem _ h)

theorem getBucket_eq_of_mem {m : List (Int × List Call)}
    (hs : (m.map Prod.fst).Pairwise (· < ·)) {p : Int} {b : List Call}
    (h : (p, b) ∈ m) : getBucket m p = b := by
  induction m with
  | nil => simp at h
  | cons kv t ih =>
    obtain ⟨q, c⟩ := kv
    simp only [List.map_cons, List.pairwise_cons] at hs
    rcases List.mem_cons.mp h with heq | hmem
    · injection heq with h1 h2
      rw [h1, h2]
      exact getBucket_cons_eq q c t
    · have hne : p ≠ q := by
        intro hpq; subst hpq
        have := hs.1 p (List.mem_map.mpr ⟨(p, b), hmem, rfl⟩)
        omega
      rw [getBucket_cons_ne c t hne]
      exact ih hs.2 hmem

theorem mem_setBucket {m : List (Int × List Call)} {p : Int} {b : List Call}
    {kv : Int × List Call} (h : kv ∈ setBucket m p b) : kv = (p, b) ∨ kv ∈ m := by
  induction m with
  | nil => simpa [setBucket] using h
  | cons hd t ih =>
    obtain ⟨q, c⟩ := hd
    by_cases h1 : p = q
    · subst h1
      simp only [setBucket, if_pos rfl] at h
      rcases List.mem_cons.mp h with h | h
      · exact Or.inl h
      · exact Or.inr (List.mem_cons_of_mem _ h)
    · by_cases h2 : p < q
      · simp only [setBucket, if_neg h1, if_pos h2] at h
        rcases List.mem_cons.mp h with h | h
        · exact Or.inl h
        · exact Or.inr h
      · simp only [setBucket, if_neg h1, if_neg h2] at h
        rcases List.mem_cons.mp h with h | h
        · exact Or.inr (h ▸ List.mem_cons_self _ _)
        · rcases ih h with h | h
          · exact Or.inl h
          · exact Or.inr (List.mem_cons_of_mem _ h)

theorem mem_setBucket_self (m : List (Int × List Call)) (p : Int) (b : List Call) :
    (p, b) ∈ setBucket m p b := by
  induction m with
  | nil => simp [setBucket]
  | cons hd t ih =>
    obtain ⟨q, c⟩ := hd
    by_cases h1 : p = q
    · subst h1; simp [setBucket]
    · by_cases h2 : p < q
      · simp [setBucket, if_neg h1, if_pos h2]
      · simp only [setBucket, if_neg h1, if_neg h2]
        exact List.mem_cons_of_mem _ ih

theorem mem_setBucket_of_ne {m : List (Int × List Call)} {p q : Int}
    {b c : List Call} (h : (q, c) ∈ m) (hne : q ≠ p) :
    (q, c) ∈ setBucket m p b := by
  induction m with
  | nil => simp at h
  | cons hd t ih =>
    obtain ⟨r, d⟩ := hd
    by_cases h1 : p = r
    · subst h1
      simp only [setBucket, if_pos rfl]
      rcases List.mem_cons.mp h with h | h
      · injection h with hq _
        exact absurd hq hne
      · exact List.mem_cons_of_mem _ h
    · by_cases h2 : p < r
      · simp only [setBucket, if_neg h1, if_pos h2]
        exact List.mem_cons_of_mem _ h
      · simp only [setBucket, if_neg h1, if_neg h2]
        rcases List.mem_cons.mp h with h | h
        · exact h ▸ List.mem_cons_self _ _
        · exact List.mem_cons_of_mem _ (ih h)

theorem keys_setBucket_subset {m : List (Int × List Call)} {p : Int}
    {b : List Call} {q : Int} (h : q ∈ (setBucket m p b).map Prod.fst) :
    q = p ∨ q ∈ m.map Prod.fst := by
  rcases List.mem_map.mp h with ⟨kv, hkv, hq⟩
  rcases mem_setBucket hkv with h1 | h1
  · left; rw [← hq, h1]
  · right; exact List.mem_map.mpr ⟨kv, h1, hq⟩

theorem pairwise_setBucket {m : List (Int × List Call)}
    (hs : (m.map Prod.fst).Pairwise (· < ·)) (p : Int) (b : List Call) :
    ((setBucket m p b).map Prod.fst).Pairwise (· < ·) := by
  induction m with
  | nil => simp [setBucket]
  | cons hd t ih =>
    obtain ⟨q, c⟩ := hd
    simp only [List.map_cons, List.pairwise_cons] at hs
    rcases lt_trichotomy p q with h2 | h1 | h2
    · rw [setBucket_cons_lt c b t h2]
      simp only [List.map_cons, List.pairwise_cons]
      refine ⟨?_, hs⟩
      intro r hr
      rcases List.mem_cons.mp hr with h | h
      · omega
      · have := hs.1 r h
        omega
    · rw [h1, setBucket_cons_eq q c b t]
      simp only [List.map_cons, List.pairwise_cons]
      exact hs
    · rw [setBucket_cons_gt c b t h2]
      simp only [List.map_cons, List.pairwise_cons]
      refine ⟨?_, ih hs.2⟩
      intro r hr
      rcases keys_setBucket_subset hr with h | h
      · omega
      · exact hs.1 r h

theorem sumSizes_setBucket {m : List (Int × List Call)}
    (hs : (m.map Prod.fst).Pairwise (· < ·)) (p : Int) (b : List Call) :
    sumSizes (setBucket m p b) + (getBucket m p).length = sumSizes m + b.length := by
  induction m with
  | nil => simp [setBucket, getBucket, sumSizes]
  | cons hd t ih =>
    obtain ⟨q, c⟩ := hd
    simp only [List.map_cons, List.pairwise_cons] at hs
    rcases lt_trichotomy p q with h2 | h1 | h2
    · have hnp : p ∉ t.map Prod.fst := by
        intro hmem
        have := hs.1 p hmem
        omega
      have hne : p ≠ q := by omega
      rw [setBucket_cons_lt c b t h2, getBucket_cons_ne c t hne,
        getBucket_eq_nil_of_not_mem hnp]
      simp only [sumSizes, List.length_nil]
      omega
    · rw [h1, setBucket_cons_eq q c b t, getBucket_cons_eq q c t]
      simp only [sumSizes]
      omega
    · have hne : p ≠ q := by omega
      rw [setBucket_cons_gt c b t h2, getBucket_cons_ne c t hne]
      simp only [sumSizes]
      have := ih hs.2
      omega

theorem eraseFirst_eq_none {b : List Call} {h : EventHandle} :
    eraseFirst b h = none ↔ ∀ c ∈ b, c.handle ≠ h := by
  induction b with
  | nil => simp [eraseFirst]
  | cons c t ih =>
    by_cases hc : EventHandle.eqB c.handle h = true
    · have he : c.handle = h := (eqB_iff _ _).mp hc
      simp only [eraseFirst, if_pos hc]
      constructor
      · intro hx
        exact absurd hx (by simp)
      · intro hall
        exact absurd he (hall c (List.mem_cons_self c t))
    · simp only [eraseFirst, if_neg hc]
      have hne : c.handle ≠ h := fun he => hc ((eqB_iff _ _).mpr he)
      constructor
      · intro hmap
        have : eraseFirst t h = none := by
          cases he : eraseFirst t h with
          | none => rfl
          | some t' => rw [he] at hmap; simp at hmap
        intro x hx
        rcases List.mem_cons.mp hx with hx | hx
        · exact hx ▸ hne
        · exact (ih.mp this) x hx
      · intro hall
        have : eraseFirst t h = none := ih.mpr fun x hx => hall x (List.mem_cons_of_mem _ hx)
        rw [this]; rfl

theorem eraseFirst_eq_some {b b' : List Call} {h : EventHandle}
    (hE : eraseFirst b h = some b') :
    ∃ l1 c0 l2, b = l1 ++ c0 :: l2 ∧ b' = l1 ++ l2 ∧ c0.handle = h ∧
      ∀ c ∈ l1, c.handle ≠ h := by
  induction b generalizing b' with
  | nil => simp [eraseFirst] at hE
  | cons c t ih =>
    by_cases hc : EventHandle.eqB c.handle h = true
    · simp only [eraseFirst, if_pos hc, Option.some.injEq] at hE
      exact ⟨[], c, t, by simp, by simp [hE], (eqB_iff _ _).mp hc, by simp⟩
    · simp only [eraseFirst, if_neg hc] at hE
      cases he : eraseFirst t h with
      | none => rw [he] at hE; simp at hE
      | some t' =>
        rw [he] at hE
        simp only [Option.map_some', Option.some.injEq] at hE
        obtain ⟨l1, c0, l2, ht, ht', hc0, hl1⟩ := ih he
        refine ⟨c :: l1, c0, l2, by simp [ht], by simp [← hE, ht'], hc0, ?_⟩
        intro x hx
        rcases List.mem_cons.mp hx with hx | hx
        · exact hx ▸ fun hh => hc ((eqB_iff _ _).mpr hh)
        · exact hl1 x hx

theorem getBucket_clear (m : List (Int × List Call)) (p : Int) :
    getBucket (m.map fun kv => (kv.1, ([] : List Call))) p = [] := by
  induction m with
  | nil => rfl
  | cons kv t ih =>
    obtain ⟨q, b⟩ := kv
    by_cases h : p = q
    · simp [getBucket, h]
    · simp [getBucket, if_neg h, ih]

theorem sumSizes_clear (m : List (Int × List Call)) :
    sumSizes (m.map fun kv => (kv.1, ([] : List Call))) = 0 := by
  induction m with
  | nil => rfl
  | cons kv t ih => obtain ⟨q, b⟩ := kv; simp [sumSizes, ih]

theorem flatCalls_clear (m : List (Int × List Call)) :
    flatCalls (m.map fun kv => (kv.1, ([] : List Call))) = [] := by
  induction m with
  | nil => rfl
  | cons kv t ih => obtain ⟨q, b⟩ := kv; simp [flatCalls, ih]

/-! ## Inversion lemmas for the registry operations -/

theorem hookRaw_eq_some {ord : Bool} {P : Int} {i fv o fl : Nat} {e : Event}
    {h : EventHandle} {e' : Event}
    (hE : e.hookRaw ord P i fv o fl = some (h, e')) :
    e.initialized = true ∧
    h = ⟨(if ord then e.priority else P : Int), i, fv⟩ ∧
    (∀ c ∈ getBucket e.callList (if ord then e.priority else P), c.handle ≠ h) ∧
    e' = { e with
           callList := setBucket e.callList (if ord then e.priority else P)
             (getBucket e.callList (if ord then e.priority else P) ++ [⟨h, o, fl⟩]),
           priority := if ord then wrap16 (e.priority + 1) else e.priority } := by
  unfold Event.hookRaw at hE
  by_cases hi : e.initialized = true
  · rw [if_pos hi] at hE
    simp only [emplace_back] at hE
    by_cases hdup :
        (getBucket e.callList (if ord then e.priority else P)).any
          (fun x => EventHandle.eqB x.handle ⟨(if ord then e.priority else P : Int), i, fv⟩) = true
    · rw [if_pos hdup] at hE
      simp at hE
    · rw [if_neg hdup] at hE
      simp only [Option.some.injEq, Prod.mk.injEq] at hE
      obtain ⟨hh, he'⟩ := hE
      have hnodup : ∀ c ∈ getBucket e.callList (if ord then e.priority else P),
          c.handle ≠ h := by
        intro c hc hch
        apply hdup
        rw [List.any_eq_true]
        refine ⟨c, hc, ?_⟩
        rw [eqB_iff, hch, hh]
      exact ⟨hi, hh.symm, hnodup, by rw [← he', ← hh]⟩
  · rw [if_neg hi] at hE
    simp at hE

theorem removeCall_eq_some {e : Event} {h : EventHandle} {e' : Event}
    (hE : e.removeCall h = some e') :
    e.initialized = true ∧
    ∃ b', eraseFirst (getBucket e.callList h.priority) h = some b' ∧
      e' = { e with callList := setBucket e.callList h.priority b' } := by
  unfold Event.removeCall at hE
  by_cases hi : e.initialized = true
  · rw [if_pos hi] at hE
    cases he : eraseFirst (getBucket e.callList h.priority) h with
    | none => rw [he] at hE; simp at hE
    | some b' =>
      rw [he] at hE
      simp only [Option.some.injEq] at hE
      exact ⟨hi, b', rfl, hE.symm⟩
  · rw [if_neg hi] at hE
    simp at hE

theorem unhook_eq_some {e : Event} {h : EventHandle} {e' : Event}
    (hE : e.unhook h = some e') : e.removeCall h = some e' := by
  unfold Event.unhook at hE
  by_cases hi : e.initialized = true
  · rwa [if_pos hi] at hE
  · rw [if_neg hi] at hE; simp at hE

theorem unhookClass_eq_some {e : Event} {p : Nat} {e' : Event}
    (hE : e.unhookClass p = some e') :
    e.initialized = true ∧
    e' = { e with callList := e.callList.map fun kv =>
             (kv.1, kv.2.filter fun c => !decide (c.handle.identifier = p)) } := by
  unfold Event.unhookClass at hE
  by_cases hi : e.initialized = true
  · rw [if_pos hi] at hE
    by_cases hr : e.callList.any (fun kv => kv.2.any fun c => decide (c.handle.identifier = p)) = true
    · rw [if_pos hr] at hE
      simp only [Option.some.injEq] at hE
      exact ⟨hi, hE.symm⟩
    · rw [if_neg hr] at hE
      simp at hE
  · rw [if_neg hi] at hE
    simp at hE

theorem clear_eq_some {e : Event} {e' : Event} (hE : e.clear = some e') :
    e.initialized = true ∧
    e' = { e with callList := e.callList.map fun kv => (kv.1, []) } := by
  unfold Event.clear at hE
  by_cases hi : e.initialized = true
  · rw [if_pos hi] at hE
    simp only [Option.some.injEq] at hE
    exact ⟨hi, hE.symm⟩
  · rw [if_neg hi] at hE
    simp at hE

/-! ## Preservation helpers for the well-formedness invariant -/

theorem BucketWF.sublist {p : Int} {b b' : List Call} (hs : List.Sublist b' b)
    (hb : BucketWF p b) : BucketWF p b' :=
  ⟨hb.1.sublist (hs.map _), fun c hc => hb.2 c (hs.subset hc)⟩

theorem bucketWF_getBucket {m : List (Int × List Call)}
    (h2 : ∀ kv ∈ m, BucketWF kv.1 kv.2) (p : Int) :
    BucketWF p (getBucket m p) := by
  rcases getBucket_mem m p with h | h
  · rw [h]; exact ⟨List.nodup_nil, by simp⟩
  · exact h2 _ h

theorem wfList_setBucket {m : List (Int × List Call)}
    (h1 : (m.map Prod.fst).Pairwise (· < ·))
    (h2 : ∀ kv ∈ m, BucketWF kv.1 kv.2) {p : Int} {b : List Call}
    (hb : BucketWF p b) :
    ((setBucket m p b).map Prod.fst).Pairwise (· < ·) ∧
    ∀ kv ∈ setBucket m p b, BucketWF kv.1 kv.2 := by
  refine ⟨pairwise_setBucket h1 p b, ?_⟩
  intro kv hkv
  rcases mem_setBucket hkv with h | h
  · rw [h]; exact hb
  · exact h2 kv h

theorem keys_mapBuckets (m : List (Int × List Call)) (g : Int → List Call → List Call) :
    ((m.map fun kv => (kv.1, g kv.1 kv.2)).map Prod.fst) = m.map Prod.fst := by
  induction m with
  | nil => rfl
  | cons kv t ih => obtain ⟨q, b⟩ := kv; simp [ih]

theorem wf_mapBuckets {m : List (Int × List Call)}
    (h1 : (m.map Prod.fst).Pairwise (· < ·))
    (h2 : ∀ kv ∈ m, BucketWF kv.1 kv.2)
    (g : Int → List Call → List Call)
    (hg : ∀ p b, BucketWF p b → BucketWF p (g p b)) :
    (((m.map fun kv => (kv.1, g kv.1 kv.2)).map Prod.fst).Pairwise (· < ·)) ∧
    ∀ kv ∈ m.map fun kv => (kv.1, g kv.1 kv.2), BucketWF kv.1 kv.2 := by
  refine ⟨by rw [keys_mapBuckets]; exact h1, ?_⟩
  intro kv hkv
  rcases List.mem_map.mp hkv with ⟨kv0, hkv0, hmap⟩
  rw [← hmap]
  exact hg kv0.1 kv0.2 (h2 kv0 hkv0)

theorem mem_setBucket_strong {m : List (Int × List Call)}
    (hs : (m.map Prod.fst).Pairwise (· < ·)) {p : Int} {b : List Call}
    {kv : Int × List Call} (h : kv ∈ setBucket m p b) :
    kv = (p, b) ∨ (kv ∈ m ∧ kv.1 ≠ p) := by
  induction m with
  | nil =>
    simp only [setBucket] at h
    rcases List.mem_cons.mp h with h | h
    · exact Or.inl h
    · simp at h
  | cons hd t ih =>
    obtain ⟨q, c⟩ := hd
    simp only [List.map_cons, List.pairwise_cons] at hs
    have hkeys : ∀ r ∈ t.map Prod.fst, q < r := hs.1
    rcases lt_trichotomy p q with h2 | h1 | h2
    · rw [setBucket_cons_lt c b t h2] at h
      rcases List.mem_cons.mp h with h | h
      · exact Or.inl h
      · refine Or.inr ⟨h, ?_⟩
        rcases List.mem_cons.mp h with h | h
        · rw [h]; intro hq; exact absurd hq.symm (by omega)
        · have := hkeys kv.1 (List.mem_map.mpr ⟨kv, h, rfl⟩)
          omega
    · subst h1
      rw [setBucket_cons_eq p c b t] at h
      rcases List.mem_cons.mp h with h | h
      · exact Or.inl h
      · refine Or.inr ⟨List.mem_cons_of_mem _ h, ?_⟩
        have := hkeys kv.1 (List.mem_map.mpr ⟨kv, h, rfl⟩)
        omega
    · rw [setBucket_cons_gt c b t h2] at h
      rcases List.mem_cons.mp h with h | h
      · refine Or.inr ⟨h ▸ List.mem_cons_self _ _, ?_⟩
        rw [h]; intro hq; exact absurd hq.symm (by omega)
      · rcases ih hs.2 h with h | h
        · exact Or.inl h
        · exact Or.inr ⟨List.mem_cons_of_mem _ h.1, h.2⟩

theorem bucketWF_map_retarget {p : Int} {b : List Call} (x y : Nat)
    (hb : BucketWF p b) :
    BucketWF p (b.map fun c => if c.class_ptr = x then { c with class_ptr := y } else c) := by
  have hhandle : ∀ c : Call,
      (if c.class_ptr = x then { c with class_ptr := y } else c).handle = c.handle := by
    intro c
    by_cases hcx : c.class_ptr = x <;> simp [hcx]
  constructor
  · have heq : (b.map fun c =>
        if c.class_ptr = x then { c with class_ptr := y } else c).map Call.handle
        = b.map Call.handle := by
      rw [List.map_map]
      exact List.map_congr_left fun c _ => hhandle c
    rw [heq]
    exact hb.1
  · intro c hc
    rcases List.mem_map.mp hc with ⟨c0, hc0, hmap⟩
    rw [← hmap, hhandle c0]
    exact hb.2 c0 hc0

theorem forall₂_map_self {α β : Type} (f : α → β) (R : α → β → Prop) (l : List α)
    (h : ∀ x ∈ l, R x (f x)) : List.Forall₂ R l (l.map f) := by
  induction l with
  | nil => exact List.Forall₂.nil
  | cons a t ih =>
    exact List.Forall₂.cons (h a (List.mem_cons_self a t))
      (ih fun x hx => h x (List.mem_cons_of_mem a hx))

theorem forall₂_self {α : Type} (R : α → α → Prop) (l : List α)
    (h : ∀ x ∈ l, R x x) : List.Forall₂ R l l := by
  induction l with
  | nil => exact List.Forall₂.nil
  | cons a t ih =>
    exact List.Forall₂.cons (h a (List.mem_cons_self a t))
      (ih fun x hx => h x (List.mem_cons_of_mem a hx))

/-! ## The claims -/

/-- A registry holding two member-function registrations: one owned by the
instance at address `4096` (member pointer `16`), one owned by the instance
at address `8192` (member pointer `32`), both hooked at priority `0`. -/
def exC1 : Event :=
  ⟨0, [(0, [⟨⟨0, identMemberFunction, Nat.xor 4096 16⟩, 4096, 16⟩,
            ⟨⟨0, identMemberFunction, Nat.xor 8192 32⟩, 8192, 32⟩])], 0, true⟩

/-- C1: the code evaluated at the failing input.  `UnhookClass(p)` compares
each stored handle's identifier against a sentinel handle whose identifier is
built from the class pointer itself (`EventHandle handle(0, class_ptr, 0)`),
never inspecting a call's `class_ptr` owner.  With a member registration
bound to instance `4096` present, `UnhookClass(4096)` matches nothing, so it
removes nothing and its `assert(unhooked)` fires (`none`) — instead of
removing exactly the registrations owned by `4096` as the spec states.
Conversely, for a (hypothetical) instance at address `4` —
the numeric value of `Identifier::MemberFunction` — it erases the
member-function registrations of *every* instance, including the one owned
by `8192`. -/
theorem unhookClass_misses_bound_instance :
    (∃ c ∈ exC1.invokeCalls,
        c.handle.identifier = identMemberFunction ∧ c.class_ptr = 4096) ∧
    exC1.unhookClass 4096 = none ∧
    exC1.unhookClass 4 = some ⟨0, [(0, [])], 0, true⟩ := by decide

/-- C2 counterexample: `operator<` is not the lexicographic order the spec
describes, and it is not a strict total order consistent with `operator==`:
`(0,1,0)` lexicographically precedes `(1,0,0)` but `operator<` denies it,
and `(0,0,1)` and `(0,1,0)` are unequal yet incomparable in both
directions. -/
theorem handle_lt_not_lexicographic :
    EventHandle.lt ⟨0, 1, 0⟩ ⟨1, 0, 0⟩ = false ∧
    specLexLT ⟨0, 1, 0⟩ ⟨1, 0, 0⟩ = true ∧
    EventHandle.lt ⟨0, 0, 1⟩ ⟨0, 1, 0⟩ = false ∧
    EventHandle.lt ⟨0, 1, 0⟩ ⟨0, 0, 1⟩ = false ∧
    EventHandle.eqB ⟨0, 0, 1⟩ ⟨0, 1, 0⟩ = false := by decide

/-- C2 (amended): `operator==` holds exactly when all three components of
(priority, kind, token) are respectively equal; `operator<` holds exactly
when all three components are strictly smaller, which is an irreflexive and
transitive strict partial order that implies — but does not coincide with —
the lexicographic order, and is not total. -/
theorem handle_ordering_spec :
    (∀ a b : EventHandle, EventHandle.eqB a b = true ↔ a = b) ∧
    (∀ a b : EventHandle, EventHandle.lt a b =
      (decide (a.priority < b.priority) && decide (a.identifier < b.identifier) &&
        decide (a.function < b.function))) ∧
    (∀ a : EventHandle, EventHandle.lt a a = false) ∧
    (∀ a b c : EventHandle, EventHandle.lt a b = true → EventHandle.lt b c = true →
      EventHandle.lt a c = true) ∧
    (∀ a b : EventHandle, EventHandle.lt a b = true → specLexLT a b = true) := by
  refine ⟨eqB_iff, fun a b => rfl, ?_, ?_, ?_⟩
  · intro a
    simp [EventHandle.lt]
  · intro a b c hab hbc
    simp only [EventHandle.lt, Bool.and_eq_true, decide_eq_true_eq] at hab hbc ⊢
    refine ⟨⟨?_, ?_⟩, ?_⟩ <;> omega
  · intro a b hab
    simp only [EventHandle.lt, Bool.and_eq_true, decide_eq_true_eq] at hab
    simp only [specLexLT, Bool.or_eq_true, Bool.and_eq_true, decide_eq_true_eq]
    exact Or.inl hab.1.1

/-- C2 witness: the amended ordering facts applied at concrete handles,
transitivity through `(1,1,1)` included. -/
theorem handle_ordering_spec_witness :
    EventHandle.lt ⟨0, 0, 0⟩ ⟨2, 2, 2⟩ = true ∧ specLexLT ⟨0, 0, 0⟩ ⟨2, 2, 2⟩ = true :=
  ⟨handle_ordering_spec.2.2.2.1 ⟨0, 0, 0⟩ ⟨1, 1, 1⟩ ⟨2, 2, 2⟩ (by decide) (by decide),
   handle_ordering_spec.2.2.2.2 ⟨0, 0, 0⟩ ⟨2, 2, 2⟩
     (handle_ordering_spec.2.2.2.1 ⟨0, 0, 0⟩ ⟨1, 1, 1⟩ ⟨2, 2, 2⟩ (by decide) (by decide))⟩

/-- An initialized registry in order-preserving mode whose sequence counter
stands at the largest `int16_t` value.  (Starting from a fresh registry, the
counter reaches this value after 32767 hooks; `Clear()` then empties the
buckets while leaving the counter in place.) -/
def exC8 : Event := ⟨0, [], 32767, true⟩

/-- C8 counterexample: the sequence counter is *not* strictly increasing
across all registrations.  With the counter at `32767`, a hook observes
`32767`, the post-increment wraps the `int16_t` counter to `-32768`, and the
next hook observes `-32768 < 32767`. -/
theorem seqCounter_wraps :
    (exC8.hookFunction true 0 10).map (fun x => x.1.priority) = some 32767 ∧
    ((exC8.hookFunction true 0 10).bind (fun x => x.2.hookFunction true 0 20)).map
        (fun x => x.1.priority) = some (-32768) ∧
    ¬((32767 : Int) < -32768) := by decide

/-- C8 (amended): in order-preserving mode every registration observes the
current counter and advances it by exactly one modulo 2^16 (signed); the
observed values are strictly increasing as long as the counter does not wrap,
i.e. while the observed value is below `32767`. -/
theorem seqCounter_advances :
    (∀ (P : Int) (i fv o fl : Nat) (e : Event) (h : EventHandle) (e' : Event),
        e.hookRaw true P i fv o fl = some (h, e') →
        h.priority = e.priority ∧ e'.priority = wrap16 (e.priority + 1)) ∧
    (∀ (P P' : Int) (i fv o fl i' fv' o' fl' : Nat) (e : Event)
        (h : EventHandle) (e' : Event) (h2 : EventHandle) (e'' : Event),
        e.hookRaw true P i fv o fl = some (h, e') →
        e'.hookRaw true P' i' fv' o' fl' = some (h2, e'') →
        -32768 ≤ e.priority → e.priority < 32767 →
        h.priority < h2.priority) := by
  have step : ∀ (P : Int) (i fv o fl : Nat) (e : Event) (h : EventHandle) (e' : Event),
      e.hookRaw true P i fv o fl = some (h, e') →
      h.priority = e.priority ∧ e'.priority = wrap16 (e.priority + 1) := by
    intro P i fv o fl e h e' hE
    obtain ⟨-, hh, -, he'⟩ := hookRaw_eq_some hE
    constructor
    · rw [hh]; simp
    · rw [he']; simp
  refine ⟨step, ?_⟩
  intro P P' i fv o fl i' fv' o' fl' e h e' h2 e'' hE1 hE2 hlo hhi
  obtain ⟨h1p, h1c⟩ := step P i fv o fl e h e' hE1
  obtain ⟨h2p, -⟩ := step P' i' fv' o' fl' e' h2 e'' hE2
  rw [h1p, h2p, h1c, wrap16_eq_self (by omega) (by omega)]
  omega

/-- C8 witness: two order-preserving hooks on a fresh bound registry observe
counter values 0 then 1. -/
theorem seqCounter_advances_witness :
    (⟨0, identFunction, 5⟩ : EventHandle).priority <
      (⟨1, identFunction, 6⟩ : EventHandle).priority :=
  seqCounter_advances.2 0 0 identFunction 5 0 5 identFunction 6 0 6
    ⟨0, [], 0, true⟩ ⟨0, identFunction, 5⟩
    ⟨0, [(0, [⟨⟨0, identFunction, 5⟩, 0, 5⟩])], 1, true⟩
    ⟨1, identFunction, 6⟩
    ⟨0, [(0, [⟨⟨0, identFunction, 5⟩, 0, 5⟩]), (1, [⟨⟨1, identFunction, 6⟩, 0, 6⟩])], 2, true⟩
    (by decide) (by decide) (by decide) (by decide)

/-- C10: copy assignment never changes the destination's own binding:
`boundTo` is preserved for every destination and source; and assigning any
initialized source into a default-constructed registry leaves the
destination initialized but still bound to no owner (`nullptr`, i.e. `0`). -/
theorem copyAssign_preserves_boundTo :
    (∀ d s : Event, (d.copyAssign s).boundTo = d.boundTo) ∧
    (∀ s : Event, s.initialized = true →
      (Event.mk0.copyAssign s).initialized = true ∧
      (Event.mk0.copyAssign s).boundTo = 0) := by
  constructor
  · intro d s
    simp only [Event.copyAssign, Event.replaceBound]
    split <;> rfl
  · intro s hs
    refine ⟨?_, ?_⟩ <;> simp [Event.copyAssign, Event.replaceBound, Event.mk0, hs]

/-- C10 witness: copy-assigning a registry bound to the object at address
`7` into a default-constructed registry. -/
theorem copyAssign_preserves_boundTo_witness :
    (Event.mk0.bindTo 7).initialized = true ∧
    (Event.mk0.copyAssign (Event.mk0.bindTo 7)).initialized = true ∧
    (Event.mk0.copyAssign (Event.mk0.bindTo 7)).boundTo = 0 :=
  ⟨rfl, copyAssign_preserves_boundTo.2 (Event.mk0.bindTo 7) rfl⟩

/-- C7: copy assignment copies all of the source's buckets (same keys, and
call-for-call the same handles and callables) and the source's order
counter and initialized flag; a copied call's owner is rewritten to the
destination's owner exactly when both registries have a non-null owner and
the call's owner equals the source's owner, and is kept unchanged otherwise
(in particular for every non-member-function call, whose owner is null). -/
theorem copyAssign_rebinds_owner (d s : Event) :
    (d.copyAssign s).priority = s.priority ∧
    (d.copyAssign s).initialized = s.initialized ∧
    List.Forall₂ (fun (kv kv' : Int × List Call) =>
        kv'.1 = kv.1 ∧
        List.Forall₂ (fun c c' =>
          c'.handle = c.handle ∧ c'.fn = c.fn ∧
          c'.class_ptr = (if d.boundTo ≠ 0 ∧ s.boundTo ≠ 0 ∧ c.class_ptr = s.boundTo
                          then d.boundTo else c.class_ptr)) kv.2 kv'.2)
      s.callList (d.copyAssign s).callList := by
  by_cases hb : d.boundTo ≠ 0 ∧ s.boundTo ≠ 0
  · have hcl : d.copyAssign s =
        { d with
          callList := s.callList.map fun kv => (kv.1, kv.2.map fun c =>
            if c.class_ptr = s.boundTo then { c with class_ptr := d.boundTo } else c),
          priority := s.priority, initialized := s.initialized } := by
      simp [Event.copyAssign, Event.replaceBound, hb]
    rw [hcl]
    refine ⟨rfl, rfl, ?_⟩
    apply forall₂_map_self
    intro kv _
    refine ⟨rfl, ?_⟩
    apply forall₂_map_self
    intro c _
    by_cases hcx : c.class_ptr = s.boundTo
    · rw [if_pos hcx, if_pos ⟨hb.1, hb.2, hcx⟩]
      exact ⟨rfl, rfl, rfl⟩
    · rw [if_neg hcx, if_neg fun hcond => hcx hcond.2.2]
      exact ⟨rfl, rfl, rfl⟩
  · have hcl : d.copyAssign s =
        { d with callList := s.callList, priority := s.priority,
                 initialized := s.initialized } := by
      simp only [Event.copyAssign, if_neg hb]
    rw [hcl]
    refine ⟨rfl, rfl, ?_⟩
    apply forall₂_self
    intro kv _
    refine ⟨rfl, ?_⟩
    apply forall₂_self
    intro c _
    refine ⟨rfl, rfl, ?_⟩
    rw [if_neg fun hcond => hb ⟨hcond.1, hcond.2.1⟩]

/-- C9: after `Clear()` on an initialized registry, `CallListSize()` is 0,
`Invoke` with any arguments visits no callable, and the registry stays
initialized and accepts further registrations (any hook succeeds on the
emptied buckets). -/
theorem clear_spec (e : Event) (hi : e.initialized = true) :
    ∃ e', e.clear = some e' ∧
      e'.callListSize = some 0 ∧
      (∀ (α : Type) (a : α), e'.invoke a = some []) ∧
      e'.initialized = true ∧
      ∀ (ord : Bool) (P : Int) (i fv o fl : Nat),
        ∃ r, e'.hookRaw ord P i fv o fl = some r := by
  refine ⟨{ e with callList := e.callList.map fun kv => (kv.1, []) }, ?_, ?_, ?_, hi, ?_⟩
  · simp [Event.clear, hi]
  · simp [Event.callListSize, hi, sumSizes_clear]
  · intro α a
    simp [Event.invoke, Event.invokeCalls, hi, flatCalls_clear]
  · intro ord P i fv o fl
    simp [Event.hookRaw, getBucket_clear, emplace_back, hi]

theorem flat_priority_mem {m : List (Int × List Call)}
    (h2 : ∀ kv ∈ m, BucketWF kv.1 kv.2) {c : Call} (hc : c ∈ flatCalls m) :
    c.handle.priority ∈ m.map Prod.fst := by
  rcases mem_flatCalls.mp hc with ⟨kv, hkv, hckv⟩
  rw [(h2 kv hkv).2 c hckv]
  exact List.mem_map.mpr ⟨kv, hkv, rfl⟩

theorem flat_count_one {m : List (Int × List Call)}
    (h1 : (m.map Prod.fst).Pairwise (· < ·))
    (h2 : ∀ kv ∈ m, BucketWF kv.1 kv.2) {c : Call} (hc : c ∈ flatCalls m) :
    (flatCalls m).count c = 1 := by
  induction m with
  | nil => simp [flatCalls] at hc
  | cons kv t ih =>
    obtain ⟨p, b⟩ := kv
    simp only [List.map_cons, List.pairwise_cons] at h1
    have hbwf : BucketWF p b := h2 (p, b) (List.mem_cons_self _ _)
    have h2t : ∀ kv ∈ t, BucketWF kv.1 kv.2 := fun kv hkv => h2 kv (List.mem_cons_of_mem _ hkv)
    have hflat : flatCalls ((p, b) :: t) = b ++ flatCalls t := rfl
    rw [hflat] at hc ⊢
    rw [List.count_append]
    rcases List.mem_append.mp hc with hcb | hct
    · have hcb1 : b.count c = 1 := List.count_eq_one_of_mem (hbwf.1.of_map _) hcb
      have hct0 : (flatCalls t).count c = 0 := by
        rw [List.count_eq_zero]
        intro hct
        have hmem := flat_priority_mem h2t hct
        have hp : c.handle.priority = p := hbwf.2 c hcb
        have hlt := h1.1 _ hmem
        omega
      omega
    · have hct1 := ih h1.2 h2t hct
      have hcb0 : b.count c = 0 := by
        rw [List.count_eq_zero]
        intro hcb
        have hp : c.handle.priority = p := hbwf.2 c hcb
        have hmem := flat_priority_mem h2t hct
        have hlt := h1.1 _ hmem
        omega
      omega

theorem flat_priority_sorted {m : List (Int × List Call)}
    (h1 : (m.map Prod.fst).Pairwise (· < ·))
    (h2 : ∀ kv ∈ m, BucketWF kv.1 kv.2) :
    ((flatCalls m).map fun c => c.handle.priority).Pairwise (· ≤ ·) := by
  induction m with
  | nil => simp [flatCalls]
  | cons kv t ih =>
    obtain ⟨p, b⟩ := kv
    simp only [List.map_cons, List.pairwise_cons] at h1
    have hbwf : BucketWF p b := h2 (p, b) (List.mem_cons_self _ _)
    have h2t : ∀ kv ∈ t, BucketWF kv.1 kv.2 := fun kv hkv => h2 kv (List.mem_cons_of_mem _ hkv)
    have hflat : flatCalls ((p, b) :: t) = b ++ flatCalls t := rfl
    rw [hflat, List.map_append, List.pairwise_append]
    refine ⟨?_, ih h1.2 h2t, ?_⟩
    · apply List.pairwise_of_forall_mem_list
      intro x hx y hy
      rcases List.mem_map.mp hx with ⟨cx, hcx, hxe⟩
      rcases List.mem_map.mp hy with ⟨cy, hcy, hye⟩
      rw [← hxe, ← hye, hbwf.2 cx hcx, hbwf.2 cy hcy]
    · intro x hx y hy
      rcases List.mem_map.mp hx with ⟨cx, hcx, hxe⟩
      rcases List.mem_map.mp hy with ⟨cy, hcy, hye⟩
      have hxp : x = p := by rw [← hxe]; exact hbwf.2 cx hcx
      have hyt := flat_priority_mem h2t hcy
      have hlt := h1.1 _ hyt
      rw [← hye]
      omega

/-- C3: on every initialized, well-formed registry `Invoke` passes through
the buckets in ascending priority order — the sequence of visited priorities
is monotone, and every priority change between visits is an ascent to a
later bucket — visiting each stored call exactly once; every visited call
receives the unchanged forwarded arguments together with its own
`class_ptr` owner (on which a member-function thunk invokes the member). -/
theorem invoke_ascending_priority {α : Type} (e : Event) (a : α)
    (hi : e.initialized = true) (hwf : EventWF e) :
    e.invoke a = some (e.invokeCalls.map fun c => (c.fn, c.class_ptr, a)) ∧
    ((e.invokeCalls.map fun c => c.handle.priority).Pairwise (· ≤ ·)) ∧
    ∀ c ∈ e.invokeCalls, e.invokeCalls.count c = 1 := by
  refine ⟨by simp [Event.invoke, hi], ?_, ?_⟩
  · exact flat_priority_sorted hwf.1 hwf.2
  · intro c hc
    exact flat_count_one hwf.1 hwf.2 hc

/-- The registry obtained by hooking free functions `10`, `20`, `30` at
explicit priorities 5, 1, 3 (in that hook order) on a fresh bound
registry. -/
def exC3 : Event :=
  ⟨0, [(1, [⟨⟨1, identFunction, 20⟩, 0, 20⟩]),
       (3, [⟨⟨3, identFunction, 30⟩, 0, 30⟩]),
       (5, [⟨⟨5, identFunction, 10⟩, 0, 10⟩])], 0, true⟩

/-- C3 witness: hooking three free functions at priorities 5, 1, 3 in
explicit-priority mode produces `exC3`, whose invocation visits the
priority-1 callable (`20`), then priority-3 (`30`), then priority-5 (`10`),
in that order; the general theorem instantiates at this state. -/
theorem invoke_ascending_priority_witness :
    (((Event.mk0.bindTo 0).hookFunction false 5 10).bind fun x =>
      (x.2.hookFunction false 1 20).bind fun y =>
        (y.2.hookFunction false 3 30).map fun z => z.2) = some exC3 ∧
    exC3.invokeCalls.map (fun c => c.fn) = [20, 30, 10] ∧
    (exC3.invoke 42 = some (exC3.invokeCalls.map fun c => (c.fn, c.class_ptr, 42)) ∧
     ((exC3.invokeCalls.map fun c => c.handle.priority).Pairwise (· ≤ ·)) ∧
     ∀ c ∈ exC3.invokeCalls, exC3.invokeCalls.count c = 1) :=
  ⟨by decide, by decide, invoke_ascending_priority exC3 42 rfl (by decide)⟩

/-- C5: no two calls within one priority bucket of a well-formed registry
have equal handles (`BucketWF` includes the `Nodup` of the handles): the
well-formedness invariant is preserved by every operation — the four `Hook`
overloads (all instances of `hookRaw`), `Unhook`, `UnhookClass`, `Clear`,
copy assignment, `BindTo` — and a `Hook` whose handle already occurs in the
target bucket fails fatally (`none`) instead of inserting the duplicate. -/
theorem bucket_handle_uniqueness :
    (∀ (ord : Bool) (P : Int) (i fv o fl : Nat) (e : Event) (h : EventHandle) (e' : Event),
        EventWF e → e.hookRaw ord P i fv o fl = some (h, e') → EventWF e') ∧
    (∀ (e : Event) (h : EventHandle) (e' : Event),
        EventWF e → e.unhook h = some e' → EventWF e') ∧
    (∀ (e : Event) (p : Nat) (e' : Event),
        EventWF e → e.unhookClass p = some e' → EventWF e') ∧
    (∀ (e e' : Event), EventWF e → e.clear = some e' → EventWF e') ∧
    (∀ (d s : Event), EventWF s → EventWF (d.copyAssign s)) ∧
    (∀ (e : Event) (p : Nat), EventWF e → EventWF (e.bindTo p)) ∧
    (∀ (ord : Bool) (P : Int) (i fv o fl : Nat) (e : Event),
        (∃ c ∈ getBucket e.callList (if ord then e.priority else P),
            c.handle = ⟨(if ord then e.priority else P : Int), i, fv⟩) →
        e.hookRaw ord P i fv o fl = none) ∧
    EventWF Event.mk0 := by
  refine ⟨?_, ?_, ?_, ?_, ?_, ?_, ?_, by decide⟩
  · -- Hook preserves the invariant
    intro ord P i fv o fl e h e' hwf hE
    obtain ⟨hi, hh, hnd, he'⟩ := hookRaw_eq_some hE
    have hold : BucketWF (if ord then e.priority else P)
        (getBucket e.callList (if ord then e.priority else P)) :=
      bucketWF_getBucket hwf.2 _
    have hb : BucketWF (if ord then e.priority else P)
        (getBucket e.callList (if ord then e.priority else P) ++ [⟨h, o, fl⟩]) := by
      constructor
      · rw [List.map_append]
        refine List.Nodup.append hold.1 (List.nodup_singleton _) ?_
        intro x hx hx'
        simp only [List.map_cons, List.map_nil, List.mem_singleton] at hx'
        rcases List.mem_map.mp hx with ⟨c, hc, hcx⟩
        exact hnd c hc (by rw [hcx, hx'])
      · intro c hc
        rcases List.mem_append.mp hc with hc | hc
        · exact hold.2 c hc
        · simp only [List.mem_singleton] at hc
          rw [hc]
          show h.priority = _
          rw [hh]
    have hres := wfList_setBucket hwf.1 hwf.2 hb
    rw [he']
    exact hres
  · -- Unhook preserves the invariant
    intro e h e' hwf hE
    obtain ⟨hi, b', herase, he'⟩ := removeCall_eq_some (unhook_eq_some hE)
    obtain ⟨l1, c0, l2, hbkt, hb', hc0, hl1⟩ := eraseFirst_eq_some herase
    have hsub : List.Sublist b' (getBucket e.callList h.priority) := by
      rw [hbkt, hb']
      exact (List.sublist_cons_self c0 l2).append_left l1
    have hb : BucketWF h.priority b' :=
      (bucketWF_getBucket hwf.2 h.priority).sublist hsub
    have hres := wfList_setBucket hwf.1 hwf.2 hb
    rw [he']
    exact hres
  · -- UnhookClass preserves the invariant
    intro e p e' hwf hE
    obtain ⟨hi, he'⟩ := unhookClass_eq_some hE
    rw [he']
    exact wf_mapBuckets hwf.1 hwf.2
      (fun _ b => b.filter fun c => !decide (c.handle.identifier = p))
      (fun q b hb => hb.sublist (List.filter_sublist b))
  · -- Clear preserves the invariant
    intro e e' hwf hE
    obtain ⟨hi, he'⟩ := clear_eq_some hE
    rw [he']
    exact wf_mapBuckets hwf.1 hwf.2 (fun _ _ => [])
      (fun q b _ => ⟨List.nodup_nil, by simp⟩)
  · -- Copy assignment preserves the invariant (from a well-formed source)
    intro d s hwfs
    by_cases hb : d.boundTo ≠ 0 ∧ s.boundTo ≠ 0
    · have hcl : d.copyAssign s =
          { d with
            callList := s.callList.map fun kv => (kv.1, kv.2.map fun c =>
              if c.class_ptr = s.boundTo then { c with class_ptr := d.boundTo } else c),
            priority := s.priority, initialized := s.initialized } := by
        simp [Event.copyAssign, Event.replaceBound, hb]
      rw [hcl]
      exact wf_mapBuckets hwfs.1 hwfs.2
        (fun _ b => b.map fun c =>
          if c.class_ptr = s.boundTo then { c with class_ptr := d.boundTo } else c)
        (fun q b hbq => bucketWF_map_retarget s.boundTo d.boundTo hbq)
    · have hcl : d.copyAssign s =
          { d with callList := s.callList, priority := s.priority,
                   initialized := s.initialized } := by
        simp only [Event.copyAssign, if_neg hb]
      rw [hcl]
      exact hwfs
  · -- BindTo preserves the invariant
    intro e p hwf
    exact hwf
  · -- Hooking a duplicate handle fails fatally
    intro ord P i fv o fl e hex
    cases hE : e.hookRaw ord P i fv o fl with
    | none => rfl
    | some x =>
      obtain ⟨h', e''⟩ := x
      obtain ⟨-, hh, hnd, -⟩ := hookRaw_eq_some hE
      obtain ⟨c, hc, hch⟩ := hex
      exact absurd (show c.handle = h' by rw [hch, hh]) (hnd c hc)

/-- A well-formed registry holding one free-function call at priority 5,
the concrete input of the C5 witness. -/
def exC5 : Event := ⟨0, [(5, [⟨⟨5, identFunction, 10⟩, 0, 10⟩])], 0, true⟩

/-- C5 witness: hooking function `10` at priority 5 into a fresh bound
registry yields a well-formed state, and hooking the same function at the
same priority again fails fatally. -/
theorem bucket_handle_uniqueness_witness :
    EventWF exC5 ∧ Event.hookRaw false 5 identFunction 10 0 10 exC5 = none :=
  ⟨bucket_handle_uniqueness.1 false 5 identFunction 10 0 10 (Event.mk0.bindTo 0)
      ⟨5, identFunction, 10⟩ exC5 (by decide) (by decide),
   bucket_handle_uniqueness.2.2.2.2.2.2.1 false 5 identFunction 10 0 10 exC5
      ⟨⟨⟨5, identFunction, 10⟩, 0, 10⟩, by decide, by decide⟩⟩

/-- C6: on an initialized well-formed registry, `Unhook(h)` fails fatally
exactly when no call whose handle equals `h` sits in the bucket for
`h.priority`; on success the call list shrinks by exactly one, no call with
handle `h` remains visible to `Invoke`, every other call remains registered,
and no call appears that was not registered before. -/
theorem unhook_exact (e : Event) (h : EventHandle) (hi : e.initialized = true)
    (hwf : EventWF e) :
    (e.unhook h = none ↔ ∀ c ∈ getBucket e.callList h.priority, c.handle ≠ h) ∧
    (∀ e', e.unhook h = some e' →
      (∃ n, e'.callListSize = some n ∧ e.callListSize = some (n + 1)) ∧
      (∀ c ∈ e'.invokeCalls, c.handle ≠ h) ∧
      (∀ c ∈ e.invokeCalls, c.handle ≠ h → c ∈ e'.invokeCalls) ∧
      (∀ c ∈ e'.invokeCalls, c ∈ e.invokeCalls)) := by
  constructor
  · -- failure is exactly "no matching call in the bucket for h.priority"
    unfold Event.unhook Event.removeCall
    rw [if_pos hi, if_pos hi]
    cases he : eraseFirst (getBucket e.callList h.priority) h with
    | none =>
      simp only []
      constructor
      · intro _
        exact eraseFirst_eq_none.mp he
      · intro _
        trivial
    | some b' =>
      simp only []
      constructor
      · intro hcontra
        exact absurd hcontra (by simp)
      · intro hall
        obtain ⟨l1, c0, l2, hbkt, -, hc0, -⟩ := eraseFirst_eq_some he
        have hc0mem : c0 ∈ getBucket e.callList h.priority := by
          rw [hbkt]
          exact List.mem_append.mpr (Or.inr (List.mem_cons_self _ _))
        exact absurd hc0 (hall c0 hc0mem)
  · -- success removes exactly the matching call
    intro e' hE
    obtain ⟨-, b', herase, he'⟩ := removeCall_eq_some (unhook_eq_some hE)
    obtain ⟨l1, c0, l2, hbkt, hb', hc0, hl1⟩ := eraseFirst_eq_some herase
    have hbwf : BucketWF h.priority (getBucket e.callList h.priority) :=
      bucketWF_getBucket hwf.2 h.priority
    have hbktmem : (h.priority, getBucket e.callList h.priority) ∈ e.callList := by
      rcases getBucket_mem e.callList h.priority with hnil | hmem
      · rw [hbkt] at hnil
        simp at hnil
      · exact hmem
    have hc0notl2 : c0.handle ∉ l2.map Call.handle := by
      have hnd := hbwf.1
      rw [hbkt, List.map_append, List.map_cons] at hnd
      exact (List.nodup_cons.mp hnd.of_append_right).1
    have hlen : (getBucket e.callList h.priority).length = b'.length + 1 := by
      rw [hbkt, hb']
      simp only [List.length_append, List.length_cons]
      omega
    have hsum := sumSizes_setBucket hwf.1 h.priority b'
    have he'list : e'.callList = setBucket e.callList h.priority b' := by rw [he']
    have hi' : e'.initialized = true := by rw [he']; exact hi
    refine ⟨?_, ?_, ?_, ?_⟩
    · -- CallListSize decreases by exactly one
      refine ⟨sumSizes e'.callList, ?_, ?_⟩
      · unfold Event.callListSize
        rw [if_pos hi']
      · unfold Event.callListSize
        rw [if_pos hi]
        have h1 : sumSizes e'.callList = sumSizes (setBucket e.callList h.priority b') := by
          rw [he'list]
        have h2 : sumSizes e.callList = sumSizes e'.callList + 1 := by
          rw [h1]
          omega
        rw [h2]
    · -- no call with handle h survives
      intro c hc
      have hc2 : c ∈ flatCalls (setBucket e.callList h.priority b') := by
        have hx : c ∈ flatCalls e'.callList := hc
        rwa [he'list] at hx
      rcases mem_flatCalls.mp hc2 with ⟨kv, hkv, hckv⟩
      rcases mem_setBucket_strong hwf.1 hkv with hkv1 | ⟨hkv1, hkv2⟩
      · subst hkv1
        have hcb' : c ∈ b' := hckv
        rw [hb'] at hcb'
        rcases List.mem_append.mp hcb' with hcl | hcl
        · exact hl1 c hcl
        · intro hch
          exact hc0notl2 (by rw [hc0, ← hch]; exact List.mem_map.mpr ⟨c, hcl, rfl⟩)
      · intro hch
        have hpr := (hwf.2 kv hkv1).2 c hckv
        rw [hch] at hpr
        exact hkv2 hpr.symm
    · -- every other call remains
      intro c hc hch
      have hcf : c ∈ flatCalls e.callList := hc
      rcases mem_flatCalls.mp hcf with ⟨kv, hkv, hckv⟩
      obtain ⟨q, bq⟩ := kv
      have hckv' : c ∈ bq := hckv
      show c ∈ flatCalls e'.callList
      rw [he'list]
      by_cases hqp : q = h.priority
      · have hbq : bq = getBucket e.callList q := (getBucket_eq_of_mem hwf.1 hkv).symm
        rw [hqp] at hbq
        rw [hbq, hbkt] at hckv'
        have hcb' : c ∈ b' := by
          rw [hb']
          rcases List.mem_append.mp hckv' with hcl | hcl
          · exact List.mem_append.mpr (Or.inl hcl)
          · rcases List.mem_cons.mp hcl with hcl | hcl
            · exact absurd (show c.handle = h by rw [hcl]; exact hc0) hch
            · exact List.mem_append.mpr (Or.inr hcl)
        exact mem_flatCalls.mpr ⟨(h.priority, b'), mem_setBucket_self _ _ _, hcb'⟩
      · exact mem_flatCalls.mpr ⟨(q, bq), mem_setBucket_of_ne hkv hqp, hckv'⟩
    · -- no call appears out of nowhere
      intro c hc
      have hc2 : c ∈ flatCalls (setBucket e.callList h.priority b') := by
        have hx : c ∈ flatCalls e'.callList := hc
        rwa [he'list] at hx
      rcases mem_flatCalls.mp hc2 with ⟨kv, hkv, hckv⟩
      rcases mem_setBucket_strong hwf.1 hkv with hkv1 | ⟨hkv1, -⟩
      · subst hkv1
        have hcb' : c ∈ b' := hckv
        have hcbkt : c ∈ getBucket e.callList h.priority := by
          rw [hbkt]
          rw [hb'] at hcb'
          rcases List.mem_append.mp hcb' with hcl | hcl
          · exact List.mem_append.mpr (Or.inl hcl)
          · exact List.mem_append.mpr (Or.inr (List.mem_cons_of_mem _ hcl))
        exact mem_flatCalls.mpr ⟨_, hbktmem, hcbkt⟩
      · exact mem_flatCalls.mpr ⟨kv, hkv1, hckv⟩

/-- A well-formed registry holding free function `40` at priority 1 and
free function `50` at priority 5, the concrete input of the C6 witness. -/
def exC6 : Event :=
  ⟨0, [(1, [⟨⟨1, identFunction, 40⟩, 0, 40⟩]),
       (5, [⟨⟨5, identFunction, 50⟩, 0, 50⟩])], 0, true⟩

/-- C6 witness: unhooking the priority-5 registration of `exC6` leaves the
priority-1 registration, shrinks the size from 2 to 1, and the unhooked
handle is gone; unhooking a handle that was never registered fails
fatally. -/
theorem unhook_exact_witness :
    ((∃ n, Event.callListSize ⟨0, [(1, [⟨⟨1, identFunction, 40⟩, 0, 40⟩]), (5, [])], 0, true⟩
        = some n ∧ exC6.callListSize = some (n + 1)) ∧
      (∀ c ∈ (⟨0, [(1, [⟨⟨1, identFunction, 40⟩, 0, 40⟩]), (5, [])], 0, true⟩ : Event).invokeCalls,
        c.handle ≠ ⟨5, identFunction, 50⟩)) ∧
    exC6.unhook ⟨7, identFunction, 50⟩ = none := by
  have h5 := (unhook_exact exC6 ⟨5, identFunction, 50⟩ rfl (by decide)).2
    ⟨0, [(1, [⟨⟨1, identFunction, 40⟩, 0, 40⟩]), (5, [])], 0, true⟩ (by decide)
  have h7 := (unhook_exact exC6 ⟨7, identFunction, 50⟩ rfl (by decide)).1.mpr (by decide)
  exact ⟨⟨h5.1, h5.2.1⟩, h7⟩

theorem setBucket_append_of_forall_lt {m : List (Int × List Call)} {p : Int}
    (hk : ∀ q ∈ m.map Prod.fst, q < p) (b : List Call) :
    setBucket m p b = m ++ [(p, b)] := by
  induction m with
  | nil => rfl
  | cons hd t ih =>
    obtain ⟨q, c⟩ := hd
    have hq : q < p := hk q (by simp)
    have hkt : ∀ r ∈ t.map Prod.fst, r < p := by
      intro r hr
      exact hk r (by simp only [List.map_cons]; exact List.mem_cons_of_mem _ hr)
    rw [setBucket_cons_gt c b t hq, ih hkt]
    rfl

theorem hookRaw_ordered_success (P : Int) (i fv o fl : Nat) (e : Event)
    (hi : e.initialized = true)
    (hnd : ∀ c ∈ getBucket e.callList e.priority, c.handle ≠ ⟨e.priority, i, fv⟩) :
    e.hookRaw true P i fv o fl = some
      (⟨e.priority, i, fv⟩,
       { e with
         callList := setBucket e.callList e.priority
           (getBucket e.callList e.priority ++ [⟨⟨e.priority, i, fv⟩, o, fl⟩]),
         priority := wrap16 (e.priority + 1) }) := by
  have hemp : emplace_back (getBucket e.callList e.priority) ⟨⟨e.priority, i, fv⟩, o, fl⟩ =
      some (getBucket e.callList e.priority ++ [⟨⟨e.priority, i, fv⟩, o, fl⟩]) := by
    unfold emplace_back
    rw [if_neg]
    intro hany
    rcases List.any_eq_true.mp hany with ⟨c, hc, hcb⟩
    exact hnd c hc ((eqB_iff _ _).mp hcb)
  unfold Event.hookRaw
  rw [if_pos hi]
  simp [hemp]

theorem flatCalls_seqBuckets (L : List (Int × Nat)) :
    ∀ c : Int, (flatCalls (seqBuckets c L)).map (fun x => x.fn) = L.map Prod.snd := by
  induction L with
  | nil => intro c; rfl
  | cons hd t ih =>
    obtain ⟨P, f⟩ := hd
    intro c
    simp [seqBuckets, flatCalls, ih (c + 1)]

theorem hookSeq_noWrap : ∀ (L : List (Int × Nat)) (e : Event),
    e.initialized = true →
    (L ≠ [] → ∀ p ∈ e.callList.map Prod.fst, p < e.priority) →
    -32768 ≤ e.priority → e.priority + L.length ≤ 32768 →
    ∃ e', hookSeq L e = some e' ∧
      e'.callList = e.callList ++ seqBuckets e.priority L ∧
      e'.initialized = true := by
  intro L
  induction L with
  | nil =>
    intro e hi _ _ _
    exact ⟨e, rfl, by simp [seqBuckets], hi⟩
  | cons hd t ih =>
    obtain ⟨P, f⟩ := hd
    intro e hi hk hlo hhi
    have hkeys : ∀ p ∈ e.callList.map Prod.fst, p < e.priority := hk (by simp)
    have hbkt : getBucket e.callList e.priority = [] :=
      getBucket_eq_nil_of_not_mem fun hmem => absurd (hkeys _ hmem) (lt_irrefl _)
    have hnd : ∀ c ∈ getBucket e.callList e.priority,
        c.handle ≠ ⟨e.priority, identFunction, f⟩ := by
      intro c hc
      rw [hbkt] at hc
      exact absurd hc (List.not_mem_nil c)
    have hstep := hookRaw_ordered_success P identFunction f 0 f e hi hnd
    rw [hbkt] at hstep
    rw [List.nil_append] at hstep
    rw [setBucket_append_of_forall_lt hkeys] at hstep
    have hstepF : e.hookFunction true P f = some
        (⟨e.priority, identFunction, f⟩,
         { e with
           callList := e.callList ++ [(e.priority, [⟨⟨e.priority, identFunction, f⟩, 0, f⟩])],
           priority := wrap16 (e.priority + 1) }) := by
      unfold Event.hookFunction
      exact hstep
    have hlen : ((P, f) :: t).length = t.length + 1 := rfl
    have hseq1 : hookSeq ((P, f) :: t) e = hookSeq t
        { e with
          callList := e.callList ++ [(e.priority, [⟨⟨e.priority, identFunction, f⟩, 0, f⟩])],
          priority := wrap16 (e.priority + 1) } := by
      show (match e.hookFunction true P f with
            | none => none
            | some x => hookSeq t x.2) = _
      rw [hstepF]
    set e1 : Event :=
      { e with
        callList := e.callList ++ [(e.priority, [⟨⟨e.priority, identFunction, f⟩, 0, f⟩])],
        priority := wrap16 (e.priority + 1) } with he1
    have hw : t ≠ [] → wrap16 (e.priority + 1) = e.priority + 1 := by
      intro ht
      have hpos : 0 < t.length := List.length_pos.mpr ht
      exact wrap16_eq_self (by omega) (by rw [hlen] at hhi; omega)
    have hi1 : e1.initialized = true := hi
    have hk1 : t ≠ [] → ∀ p ∈ e1.callList.map Prod.fst, p < e1.priority := by
      intro ht p hp
      have he1p : e1.priority = e.priority + 1 := hw ht
      have he1k : e1.callList.map Prod.fst = e.callList.map Prod.fst ++ [e.priority] := by
        rw [he1]
        simp
      rw [he1k] at hp
      rcases List.mem_append.mp hp with hp | hp
      · have := hkeys p hp
        omega
      · simp only [List.mem_singleton] at hp
        omega
    have hlo1 : -32768 ≤ e1.priority := wrap16_lb _
    have he1p : e1.priority = wrap16 (e.priority + 1) := rfl
    have hhi1 : e1.priority + t.length ≤ 32768 := by
      by_cases ht : t = []
      · subst ht
        have hub := wrap16_ub (e.priority + 1)
        rw [he1p]
        simp only [List.length_nil, Nat.cast_zero, add_zero]
        omega
      · rw [he1p, hw ht]
        rw [hlen] at hhi
        omega
    obtain ⟨e'', hseq, hlist, hinit⟩ := ih e1 hi1 hk1 hlo1 hhi1
    refine ⟨e'', by rw [hseq1]; exact hseq, ?_, hinit⟩
    have hsb : seqBuckets e1.priority t = seqBuckets (e.priority + 1) t := by
      cases t with
      | nil => rfl
      | cons x xs =>
        rw [he1p, hw (by simp)]
    rw [hlist, hsb]
    show e1.callList ++ seqBuckets (e.priority + 1) t
        = e.callList ++ seqBuckets e.priority ((P, f) :: t)
    rw [show seqBuckets e.priority ((P, f) :: t)
        = (e.priority, [⟨⟨e.priority, identFunction, f⟩, 0, f⟩]) :: seqBuckets (e.priority + 1) t
      from rfl]
    rw [he1]
    simp

/-- C4 counterexample: two order-preserving hooks performed while the
sequence counter stands at `32767` (an initialized registry with empty
buckets; starting from a fresh registry the counter reaches this value after
32767 hooks, and `Clear()` empties the buckets without resetting it).  The
first hook gets priority 32767, the counter wraps, the second hook gets
priority -32768, and `Invoke` observes the second-hooked callable (`20`)
before the first (`10`) — not in hook order. -/
theorem hookOrder_wraps_at_counter_overflow :
    (hookSeq [(0, 10), (0, 20)] ⟨0, [], 32767, true⟩).map
        (fun e' => e'.invokeCalls.map fun c => c.fn) = some [20, 10] ∧
    ([20, 10] : List Nat) ≠ [10, 20] := by decide

/-- C4 (amended): in order-preserving mode (`KeepOrder = true`) the priority
argument passed to `Hook` is completely ignored — the result is the same for
any two priority arguments — and is replaced by the current sequence counter,
which is then advanced (post-increment, modulo 2^16 signed); and for every
sequence of `N` hooks on an initialized registry with empty buckets,
*provided the counter does not overflow `int16_t` during the sequence*
(counter + N ≤ 32768, e.g. at most 32768 hooks on a fresh registry), a
subsequent `Invoke` observes the `N` callables in exactly their hook order,
regardless of the priority arguments passed. -/
theorem hook_keepOrder_fifo :
    (∀ (P Q : Int) (i fv o fl : Nat) (e : Event),
        e.hookRaw true P i fv o fl = e.hookRaw true Q i fv o fl) ∧
    (∀ (P : Int) (i fv o fl : Nat) (e : Event) (h : EventHandle) (e' : Event),
        e.hookRaw true P i fv o fl = some (h, e') →
        h.priority = e.priority ∧ e'.priority = wrap16 (e.priority + 1)) ∧
    (∀ (L : List (Int × Nat)) (e : Event),
        e.initialized = true → e.callList = [] →
        -32768 ≤ e.priority → e.priority + L.length ≤ 32768 →
        ∃ e', hookSeq L e = some e' ∧
          e'.invokeCalls.map (fun c => c.fn) = L.map Prod.snd) := by
  refine ⟨?_, ?_, ?_⟩
  · intro P Q i fv o fl e
    simp [Event.hookRaw]
  · intro P i fv o fl e h e' hE
    obtain ⟨-, hh, -, he'⟩ := hookRaw_eq_some hE
    constructor
    · rw [hh]; simp
    · rw [he']; simp
  · intro L e hi hnil hlo hhi
    obtain ⟨e', hseq, hlist, -⟩ :=
      hookSeq_noWrap L e hi (fun _ p hp => by rw [hnil] at hp; simp at hp) hlo hhi
    refine ⟨e', hseq, ?_⟩
    show (flatCalls e'.callList).map (fun c => c.fn) = L.map Prod.snd
    rw [hlist, hnil, List.nil_append]
    exact flatCalls_seqBuckets L e.priority

/-- C4 witness: hooking callables `7` and `8` with (ignored) priority
arguments 9 and 3 on a fresh bound order-preserving registry; `Invoke`
observes them in hook order `[7, 8]`. -/
theorem hook_keepOrder_fifo_witness :
    ∃ e', hookSeq [(9, 7), (3, 8)] (Event.mk0.bindTo 0) = some e' ∧
      e'.invokeCalls.map (fun c => c.fn) = [7, 8] :=
  hook_keepOrder_fifo.2.2 [(9, 7), (3, 8)] (Event.mk0.bindTo 0)
    rfl rfl (by decide) (by decide)

/-- An initialized registry with one free function hooked at priority 2,
used as the concrete input of the C9 witness. -/
def exC9 : Event := ⟨0, [(2, [⟨⟨2, identFunction, 9⟩, 0, 9⟩])], 0, true⟩

/-- C9 witness: `Clear()` applied to a registry holding one callback. -/
theorem clear_spec_witness :
    exC9.initialized = true ∧
    (∃ e', exC9.clear = some e' ∧
      e'.callListSize = some 0 ∧
      (∀ (α : Type) (a : α), e'.invoke a = some []) ∧
      e'.initialized = true ∧
      ∀ (ord : Bool) (P : Int) (i fv o fl : Nat),
        ∃ r, e'.hookRaw ord P i fv o fl = some r) :=
  ⟨rfl, clear_spec exC9 rfl⟩

end Events
